import Mathlib

/-!
Shallow embedding of the Leaf text editor core (src/leaf.c).

Rows are modelled as lists of characters; the C `int size` / `int rsize`
fields are the lengths of the corresponding lists.  Machine integers that
can be negative (the search engine's `last_match`, `direction`, `current`)
are modelled as `Int`; all other counters stay in `Nat` because the C code
keeps them non-negative on the paths embedded here.  Loops that the C code
writes with in-place mutation are embedded as structurally recursive
functions threading the mutated state; loops whose C termination argument
is "the scan index grows" get an explicit fuel argument that is always
instantiated large enough that exhaustion is unreachable (justified at the
definition).
-/

/-- `LEAF_TAB_STOP` from leaf.c. -/
def LEAF_TAB_STOP : Nat := 8

/-- The `editorHighlight` enum of leaf.c (`HL_NORMAL` .. `HL_MATCH`). -/
inductive HL where
  | hl_normal
  | hl_comment
  | hl_mlcomment
  | hl_keyword1
  | hl_keyword2
  | hl_string
  | hl_number
  | hl_match
deriving DecidableEq

/-- One `textRow` of leaf.c.  `chars` is the logical content (without the
NUL terminator), `hl` the stored highlight array, `in_mloc` the
`in_multiline_open_comment` flag.  The C `idx` field is the row's position
in the document list, and `render`/`rsize` are recomputed from `chars`
by `UpdateRow`, so neither is stored here. -/
structure Row where
  chars : List Char
  hl : List HL
  in_mloc : Bool
deriving DecidableEq

instance : Inhabited Row := ⟨⟨[], [], false⟩⟩

/-- The `struct syntax` descriptor of leaf.c: single-line comment start,
multi-line comment delimiters, keyword list (a trailing `|` marks the
second keyword class), and the two highlight feature flags. -/
structure SyntaxDef where
  scs : List Char
  mcs : List Char
  mce : List Char
  keywords : List (List Char)
  hlNumbers : Bool
  hlStrings : Bool

/-- The single `HLDB` entry of leaf.c (the C-language profile). -/
def CSyntax : SyntaxDef :=
  { scs := "//".toList
  , mcs := "/*".toList
  , mce := "*/".toList
  , keywords :=
      [ "switch".toList, "if".toList, "while".toList, "for".toList
      , "break".toList, "continue".toList, "return".toList, "else".toList
      , "struct".toList, "union".toList, "typedef".toList, "static".toList
      , "enum".toList, "class".toList, "case".toList
      , "int|".toList, "long|".toList, "double|".toList, "float|".toList
      , "char|".toList, "unsigned|".toList, "signed|".toList, "void|".toList ]
  , hlNumbers := true
  , hlStrings := true }

/-- `is_separator` of leaf.c: C-locale `isspace`, the NUL byte, or one of
the punctuation characters of the `strchr` set (braces written with hex
escapes). -/
def is_separator (c : Char) : Bool :=
  c == ' ' || c == '\t' || c == '\n' || c == '\x0b' || c == '\x0c' || c == '\r'
    || c == '\x00' || ",._()\x7b\x7d[]/+-=;*<>%".toList.contains c

/-- The render-building loop of `UpdateRow`: a tab emits one space and then
fills with spaces until the output index is a multiple of `LEAF_TAB_STOP`
(together `LEAF_TAB_STOP - idx % LEAF_TAB_STOP` spaces); every other byte
is copied verbatim. -/
def renderAux (acc : List Char) : List Char → List Char
  | [] => acc
  | c :: rest =>
      if c == '\t' then
        renderAux (acc ++ List.replicate (LEAF_TAB_STOP - acc.length % LEAF_TAB_STOP) ' ') rest
      else
        renderAux (acc ++ [c]) rest

/-- `row->render` as a function of `row->chars` (`UpdateRow` recomputes it
after every mutation; `rsize` is its length). -/
def renderChars (chars : List Char) : List Char := renderAux [] chars

/-- Number of tab bytes in a row's `chars` (the `tabs` counter of
`UpdateRow`). -/
def countTabs (l : List Char) : Nat := l.countP (fun c => c == '\t')

/-- The loop body of `CursorXToRenderXConverter`, iterating `cursorX`
times.  The C loop reads `row->chars[i]`; index `size` holds the NUL
terminator, which is not a tab, so reads at or past `chars.length` are
modelled as non-tab bytes (the C code only reaches in-bounds indexes on
the embedded paths). -/
def cxToRxAux : List Char → Nat → Nat → Nat
  | _, 0, renderX => renderX
  | [], n + 1, renderX => renderX + (n + 1)
  | c :: rest, n + 1, renderX =>
      cxToRxAux rest n
        (if c == '\t' then renderX + (LEAF_TAB_STOP - renderX % LEAF_TAB_STOP) else renderX + 1)

/-- `CursorXToRenderXConverter` of leaf.c (logical column to visual
column): a tab advances to the next multiple of the tab stop, every other
byte advances by one. -/
def CursorXToRenderXConverter (chars : List Char) (cursorX : Nat) : Nat :=
  cxToRxAux chars cursorX 0

/-- The loop of `RederXToCursorXConverter`: walk `chars`, accumulate the
running visual column, and return the logical index at which the running
column first exceeds the target; falls off the end returning `size`. -/
def rxToCxAux : List Char → Nat → Nat → Nat → Nat
  | [], _, _, cx => cx
  | c :: rest, cur, renderX, cx =>
      let cur' := if c == '\t' then cur + (LEAF_TAB_STOP - cur % LEAF_TAB_STOP) else cur + 1
      if renderX < cur' then cx else rxToCxAux rest cur' renderX (cx + 1)

/-- `RederXToCursorXConverter` of leaf.c (visual column to logical
column); the function is defined in leaf.c but never called. -/
def RederXToCursorXConverter (chars : List Char) (renderX : Nat) : Nat :=
  rxToCxAux chars 0 renderX 0

/-- `memset(&hl[i], v, n)` on a highlight array. -/
def setRange (hl : List HL) (i n : Nat) (v : HL) : List HL :=
  hl.take i ++ List.replicate (min n (hl.length - i)) v ++ hl.drop (i + n)

/-- C `strstr(hay, needle)` as the byte offset of the first occurrence of
`needle` in `hay` (`none` if absent).  An empty needle matches at offset
0, exactly as C's `strstr` returns `hay` itself. -/
def strstr (hay needle : List Char) : Option Nat :=
  if needle.isPrefixOf hay then some 0
  else
    match hay with
    | [] => none
    | _ :: t => (strstr t needle).map (· + 1)

/-- The keyword-matching `for` loop inside `updateSyntax`: find the first
keyword whose text (a trailing `|` marks the second class and is dropped
from the compared length) is a prefix of `render` at position `i` and is
followed by a separator.  The C code reads `render[i + key_len]`, which is
the NUL terminator when the keyword ends exactly at `rsize`; `is_separator`
accepts NUL, so the out-of-list case is `true`. -/
def findKeyword (kws : List (List Char)) (render : List Char) (i : Nat) :
    Option (Nat × Bool) :=
  match kws with
  | [] => none
  | kw :: rest =>
      let key2 : Bool := kw.getLast? == some '|'
      let kw' := if key2 then kw.dropLast else kw
      if kw'.isPrefixOf (render.drop i)
          ∧ (if h : i + kw'.length < render.length
             then is_separator (render.get ⟨i + kw'.length, h⟩) = true
             else True) then
        some (kw'.length, key2)
      else findKeyword rest render i

/-- The `while (i < row->rsize)` loop of `updateSyntax`, scanning `render`
with the state `(i, hl, prev_sep, in_string, in_comment)`.  The C loop
terminates because every iteration advances `i`, except that a keyword of
length 0 would leave `i` unchanged for one iteration while flipping
`prev_sep` from true to false; hence at most `2 * render.length + 1`
iterations ever run, and that is the fuel every caller supplies (so the
fuel-exhausted branch is unreachable).  `size` is `row->size`: the escape
lookahead of the string branch compares against the chars length, exactly
as the C code does. -/
def updateHighlightLoop (syn : SyntaxDef) (render : List Char) (size : Nat) :
    Nat → Nat → List HL → Bool → Option Char → Bool → List HL × Bool
  | 0, _, hl, _, _, inC => (hl, inC)
  | fuel + 1, i, hl, prevSep, inStr, inC =>
      if i < render.length then
        let c := render.getD i '\x00'
        let prevHl := if i = 0 then HL.hl_normal else hl.getD (i - 1) HL.hl_normal
        if syn.scs.length ≠ 0 ∧ inStr = none ∧ inC = false
            ∧ syn.scs.isPrefixOf (render.drop i) then
          (setRange hl i (render.length - i) HL.hl_comment, inC)
        else if syn.mcs.length ≠ 0 ∧ syn.mce.length ≠ 0 ∧ inStr = none ∧ inC = true then
          if syn.mce.isPrefixOf (render.drop i) then
            updateHighlightLoop syn render size fuel (i + syn.mce.length)
              (setRange (hl.set i HL.hl_mlcomment) i syn.mce.length HL.hl_mlcomment)
              true none false
          else
            updateHighlightLoop syn render size fuel (i + 1)
              (hl.set i HL.hl_mlcomment) prevSep inStr true
        else if syn.mcs.length ≠ 0 ∧ syn.mce.length ≠ 0 ∧ inStr = none ∧ inC = false
            ∧ syn.mcs.isPrefixOf (render.drop i) then
          updateHighlightLoop syn render size fuel (i + syn.mcs.length)
            (setRange hl i syn.mcs.length HL.hl_mlcomment) prevSep inStr true
        else if syn.hlStrings = true ∧ inStr.isSome then
          if c = '\\' ∧ i + 1 < size then
            updateHighlightLoop syn render size fuel (i + 2)
              ((hl.set i HL.hl_string).set (i + 1) HL.hl_string) prevSep inStr inC
          else
            updateHighlightLoop syn render size fuel (i + 1)
              (hl.set i HL.hl_string) true (if inStr = some c then none else inStr) inC
        else if syn.hlStrings = true ∧ inStr = none ∧ (c = '"' ∨ c = '\'') then
          updateHighlightLoop syn render size fuel (i + 1)
            (hl.set i HL.hl_string) prevSep (some c) inC
        else if syn.hlNumbers = true
            ∧ ((c.isDigit = true ∧ (prevSep = true ∨ prevHl = HL.hl_number))
               ∨ (c = '.' ∧ prevHl = HL.hl_number)) then
          updateHighlightLoop syn render size fuel (i + 1)
            (hl.set i HL.hl_number) false inStr inC
        else if prevSep = true then
          match findKeyword syn.keywords render i with
          | some (klen, key2) =>
              updateHighlightLoop syn render size fuel (i + klen)
                (setRange hl i klen (if key2 then HL.hl_keyword1 else HL.hl_keyword2))
                false inStr inC
          | none =>
              updateHighlightLoop syn render size fuel (i + 1) hl (is_separator c) inStr inC
        else
          updateHighlightLoop syn render size fuel (i + 1) hl (is_separator c) inStr inC
      else (hl, inC)

/-- One `updateSyntax` pass over a single row (no cascade): recompute the
highlight array from the row's render text, starting from the previous
row's `in_multiline_open_comment` flag, and return the new highlight array
together with the end-of-row `in_comment` value. -/
def updateHighlightRow (syn : SyntaxDef) (chars : List Char) (startInC : Bool) :
    List HL × Bool :=
  let render := renderChars chars
  updateHighlightLoop syn render chars.length (2 * render.length + 1) 0
    (List.replicate render.length HL.hl_normal) true none startInC

/-- The body of one `updateSyntax` call on row `idx` before the cascade
decision: read the initial `in_comment` from row `idx - 1`, run the row
pass, store the new highlight array and flag, and report whether the flag
changed. -/
def rowPass (syn : SyntaxDef) (rows : List Row) (idx : Nat) : List Row × Bool :=
  let row := rows.getD idx default
  let inC := if idx = 0 then false else (rows.getD (idx - 1) default).in_mloc
  let res := updateHighlightRow syn row.chars inC
  (rows.set idx { row with hl := res.1, in_mloc := res.2 }, row.in_mloc != res.2)

/-- The cross-row recursion of `updateSyntax`: run the row pass on row
`idx`, and re-run on the next row while the flag changed and
`idx + 1 < bound`.  `bound` is the value of `configuration.rows_number`
at call time (during `insertRow` it is the pre-insertion row count).  The
second component records the rows visited, in order.  The fuel argument
is always called with `bound + 1`, enough for the longest possible chain
`idx, idx+1, ..., bound-1`. -/
def highlightCascade (syn : SyntaxDef) (bound : Nat) :
    Nat → List Row → Nat → List Row × List Nat
  | 0, rows, _ => (rows, [])
  | fuel + 1, rows, idx =>
      if idx < rows.length then
        let p := rowPass syn rows idx
        if p.2 = true ∧ idx + 1 < bound then
          let next := highlightCascade syn bound fuel p.1 (idx + 1)
          (next.1, idx :: next.2)
        else (p.1, [idx])
      else (rows, [])

/-- `updateSyntax(&row[idx])` including the early `configuration.syntax ==
NULL` return (highlight all-normal, flag untouched, no cascade). -/
def runRowHighlight (syn : Option SyntaxDef) (bound : Nat) (rows : List Row)
    (idx : Nat) : List Row :=
  match syn with
  | none =>
      if idx < rows.length then
        let row := rows.getD idx default
        rows.set idx { row with hl := List.replicate (renderChars row.chars).length HL.hl_normal }
      else rows
  | some s => (highlightCascade s bound (bound + 1) rows idx).1

/-- `memmove`-level insertion used by `insertRow`. -/
def insertAt (l : List Row) (i : Nat) (x : Row) : List Row :=
  l.take i ++ x :: l.drop i

/-- `insertRow(at, s, len)` of leaf.c: validate the index, insert a fresh
row (`in_multiline_open_comment = 0`), and run `UpdateRow` on it — which
calls `updateSyntax` while `configuration.rows_number` still holds the
pre-insertion count, so that count is the cascade bound. -/
def docInsertRow (syn : Option SyntaxDef) (rows : List Row) (a : Nat)
    (s : List Char) : List Row :=
  if a > rows.length then rows
  else runRowHighlight syn rows.length (insertAt rows a ⟨s, [], false⟩) a

/-- `insertChar` followed by `rowInsertChar` of leaf.c, at document level:
materialize the virtual end row if needed, clamp the column like
`rowInsertChar` does, splice the byte in, and rerun the row update (render
recomputation is implicit; the highlight pass cascades with the current
row count as bound). -/
def docInsertChar (syn : Option SyntaxDef) (rows : List Row) (y x : Nat)
    (c : Char) : List Row :=
  let rows := if y = rows.length then docInsertRow syn rows rows.length [] else rows
  if y < rows.length then
    let row := rows.getD y default
    let a := if x > row.chars.length then row.chars.length else x
    let rows' := rows.set y { row with chars := row.chars.take a ++ c :: row.chars.drop a }
    runRowHighlight syn rows'.length rows' y
  else rows

/-- The slice of `struct editorConfig` that the embedded operations touch,
plus the static locals of `findCallback` (`last_match`, `direction`,
`saved_hl_line`/`saved_hl` folded into one option). -/
structure EState where
  rows : List Row
  cursorX : Nat
  cursorY : Nat
  row_offset : Nat
  column_offset : Nat
  last_match : Int
  direction : Int
  saved : Option (Nat × List HL)
deriving DecidableEq

/-- The restore block at the top of `findCallback`: if a highlight copy is
saved, `memcpy` it back over the first `rsize` bytes of that row's
highlight array and clear the save slot. -/
def restoreSaved (st : EState) : EState :=
  match st.saved with
  | none => st
  | some (line, sav) =>
      let row := st.rows.getD line default
      let r := (renderChars row.chars).length
      { st with
        rows := st.rows.set line { row with hl := sav.take r ++ row.hl.drop r }
        saved := none }

/-- The wrap-around stepping of the search loop:
`current += direction; if (current == -1) current = rows_number - 1;
else if (current == rows_number) current = 0;`. -/
def searchStep (n : Nat) (current direction : Int) : Int :=
  let c := current + direction
  if c = -1 then (n : Int) - 1 else if c = (n : Int) then 0 else c

/-- The `for (i = 0; i < rows_number; i++)` scan of `findCallback`: step
`current` with wraparound, test the row's render text with `strstr`, stop
at the first match.  Returns the match (row index, render byte offset)
and the list of row indexes visited, in order. -/
def searchLoop (rows : List Row) (query : List Char) :
    Nat → Int → Int → Option (Nat × Nat) × List Nat
  | 0, _, _ => (none, [])
  | fuel + 1, current, direction =>
      let c := searchStep rows.length current direction
      let idx := c.toNat
      let row := rows.getD idx default
      match strstr (renderChars row.chars) query with
      | some off => (some (idx, off), [idx])
      | none =>
          let next := searchLoop rows query fuel c direction
          (next.1, idx :: next.2)

/-- Key codes used by `findCallback`: `'\r' = 13`, `'\x1b' = 27`,
`ARROW_LEFT = 1000`, `ARROW_RIGHT = 1001`, `ARROW_UP = 1002`,
`ARROW_DOWN = 1003`. -/
def KEY_ENTER : Int := 13
def KEY_ESC : Int := 27
def KEY_LEFT : Int := 1000
def KEY_RIGHT : Int := 1001
def KEY_UP : Int := 1002
def KEY_DOWN : Int := 1003

/-- The scan-and-act part of `findCallback`, run after the key dispatch
has fixed `last_match` and `direction`.  On a match: remember the row,
move `cursorY` there, set `cursorX` through `CursorXToRenderXConverter`
applied to the render byte offset of the match (this is the code as
written; the unused `RederXToCursorXConverter` is the visual-to-logical
direction), set `row_offset = rows_number`, save the row's highlight
array and overwrite the matched span with `HL_MATCH`.  On no match after
the full wrap: only the static search state changes. -/
def findScan (st1 : EState) (query : List Char) (lm dir2 : Int) :
    EState × List Nat :=
  let res := searchLoop st1.rows query st1.rows.length lm dir2
  match res.1 with
  | none => ({ st1 with last_match := lm, direction := dir2 }, res.2)
  | some (idx, off) =>
      let row := st1.rows.getD idx default
      ({ st1 with
          rows := st1.rows.set idx
            { row with hl := setRange row.hl off query.length HL.hl_match }
          cursorX := CursorXToRenderXConverter row.chars off
          cursorY := idx
          row_offset := st1.rows.length
          last_match := (idx : Int)
          direction := dir2
          saved := some (idx, row.hl) }, res.2)

/-- `findCallback(query, key)` of leaf.c, also returning the list of row
indexes visited by the scan (empty on the early Enter/Escape return).
After the restore block: Enter/Escape reset the static state and return;
an arrow key sets the direction keeping `last_match`; any other key
resets `last_match = -1, direction = 1`; a `last_match` of `-1` forces
forward search.  Then the scan runs. -/
def findCallbackV (st : EState) (query : List Char) (key : Int) :
    EState × List Nat :=
  let st1 := restoreSaved st
  if key = KEY_ENTER ∨ key = KEY_ESC then
    ({ st1 with last_match := -1, direction := 1 }, [])
  else
    let lm := if key = KEY_LEFT ∨ key = KEY_RIGHT ∨ key = KEY_UP ∨ key = KEY_DOWN
              then st1.last_match else -1
    let dir1 : Int := if key = KEY_LEFT ∨ key = KEY_UP then -1 else 1
    let dir2 : Int := if lm = -1 then 1 else dir1
    findScan st1 query lm dir2

/-- `findCallback` proper (the state after one callback invocation). -/
def findCallback (st : EState) (query : List Char) (key : Int) : EState :=
  (findCallbackV st query key).1

/-- `rowsToString` of leaf.c: every row's `chars` followed by one `'\n'`,
in row order. -/
def rowsToString (rows : List (List Char)) : List Char :=
  rows.foldr (fun r acc => r ++ '\n' :: acc) []

/-- The trailing-newline/CR stripping loop of `editorOpen`:
`while (length > 0 && (line[length-1] == '\n' || line[length-1] == '\r')) length--;`. -/
def stripLineEnd (l : List Char) : List Char :=
  (l.reverse.dropWhile (fun c => c == '\n' || c == '\r')).reverse

/-- `getline` splitting: cut the buffer into lines, each including its
terminating `'\n'`; a final fragment with no newline is returned as-is,
and nothing is returned at end of input (`getline` yields -1 there).
`acc` holds the current line, reversed. -/
def getLinesAux (acc : List Char) : List Char → List (List Char)
  | [] => if acc.isEmpty then [] else [acc.reverse]
  | c :: rest =>
      if c == '\n' then (acc.reverse ++ ['\n']) :: getLinesAux [] rest
      else getLinesAux (c :: acc) rest

/-- The line-ingestion loop of `editorOpen`: split the byte buffer into
`getline` lines and strip each line's trailing newline/CR bytes; the
resulting lists are the `chars` of the rows `insertRow` appends. -/
def readLines (buf : List Char) : List (List Char) :=
  (getLinesAux [] buf).map stripLineEnd

/-- A row-content operation, as performed by `rowInsertChar` /
`rowDeleteChar` of leaf.c; both clamp an out-of-range index to `size`. -/
inductive RowOp where
  | ins (a : Nat) (c : Char)
  | del (a : Nat)

/-- Apply one `RowOp` to a row's `chars`.  Insertion splices the byte at
the (clamped) index.  Deletion mirrors
`memmove(&chars[at], &chars[at+1], size - at); size--;`: for a clamped
`at = size` no byte moves and the size decrement drops the last byte (on
an empty row the C `size` would underflow to -1; here the length is
truncated at zero). -/
def applyRowOp (chars : List Char) : RowOp → List Char
  | .ins a c =>
      let a := if a > chars.length then chars.length else a
      chars.take a ++ c :: chars.drop a
  | .del a =>
      let a := if a > chars.length then chars.length else a
      (chars.take a ++ chars.drop (a + 1)).take (chars.length - 1)

/-- A sequence of `insertChar`/`deleteChar` operations on one row. -/
def applyRowOps (chars : List Char) (ops : List RowOp) : List Char :=
  ops.foldl applyRowOp chars

/-- "The buffer holds a NUL byte at index `size`": position `size` exists
in the modelled allocation and holds the NUL byte. -/
def nulTerminated (buf : List Char) (size : Nat) : Prop :=
  buf.get? size = some '\x00'

/-- The `chars` buffer `insertRow` builds: `malloc(len + 1)`, `memcpy`,
`chars[len] = '\0'`. -/
def insertRowCharsBuf (s : List Char) : List Char := s ++ ['\x00']

/-- The `chars` buffer after `rowInsertChar` on a buffer of `size + 1`
meaningful bytes: grow by one, `memmove(&chars[at+1], &chars[at],
size - at + 1)` (which carries the NUL along), then store the byte. -/
def rowInsertCharBuf (buf : List Char) (size a : Nat) (c : Char) : List Char :=
  let a := if a > size then size else a
  buf.take a ++ c :: (buf.drop a).take (size - a + 1)

/-- The `chars` buffer after `rowDeleteChar`:
`memmove(&chars[at], &chars[at+1], size - at)` copies the tail including
the NUL terminator one slot down; bytes from index `size` on are left as
they were. -/
def rowDeleteCharBuf (buf : List Char) (size a : Nat) : List Char :=
  let a := if a > size then size else a
  buf.take a ++ (buf.drop (a + 1)).take (size - a) ++ buf.drop size

/-- The `chars` buffer after `rowAppendString`: reallocate to
`size + len + 1`, `memcpy` the new text at index `size`, store the NUL. -/
def rowAppendStringBuf (buf : List Char) (size : Nat) (s : List Char) : List Char :=
  buf.take size ++ s ++ ['\x00']

/-- The `chars` buffer after the line-split truncation of `insertNewLine`:
`row->size = cursorX; row->chars[row->size] = '\0';` (bytes beyond stay). -/
def truncateRowBuf (buf : List Char) (newSize : Nat) : List Char :=
  buf.take newSize ++ '\x00' :: buf.drop (newSize + 1)

/-- The `render` buffer `UpdateRow` writes: the expanded text followed by
the NUL stored at `render[idx]`. -/
def renderCharsBuf (chars : List Char) : List Char :=
  renderChars chars ++ ['\x00']

/-- Build a document the way `editorOpen` does: the syntax profile is
selected first, then every line is appended with `insertRow` at the end. -/
def mkDoc (lines : List (List Char)) : List Row :=
  lines.foldl (fun rows s => docInsertRow (some CSyntax) rows rows.length s) []

/-- The three-row document of the block-comment scenario. -/
def c6doc0 : List Row := mkDoc [['a'], ['b'], ['*', '/', 'c']]

/-- The scenario document after inserting `'/'` at (row 0, col 0) and
`'*'` at (row 0, col 1), with the highlight pass re-run by each insert. -/
def c6doc2 : List Row :=
  docInsertChar (some CSyntax) (docInsertChar (some CSyntax) c6doc0 0 0 '/') 0 1 '*'

/-- A row whose render text contains tabs before the first search match:
`chars` = TAB followed by seven `'a'`s, so `render` is eight spaces
followed by seven `'a'`s and the first `'a'` sits at render offset 8. -/
def bugRow : Row :=
  { chars := "\taaaaaaa".toList
  , hl := List.replicate 15 HL.hl_normal
  , in_mloc := false }

/-- Editor state holding only `bugRow`, cursor at the origin, no search
session active: the state right before typing a search query. -/
def bugState : EState :=
  { rows := [bugRow]
  , cursorX := 0
  , cursorY := 0
  , row_offset := 0
  , column_offset := 0
  , last_match := -1
  , direction := 1
  , saved := none }

/-- One-row document `"ab"` with the cursor at column 1: the state used
to refute the empty-query claim. -/
def c4State : EState :=
  { rows := [{ chars := ['a', 'b'], hl := [HL.hl_normal, HL.hl_normal], in_mloc := false }]
  , cursorX := 1
  , cursorY := 0
  , row_offset := 0
  , column_offset := 0
  , last_match := -1
  , direction := 1
  , saved := none }

/-- One-row document `"b"`, cursor at the origin: used to instantiate the
failed-search theorem. -/
def c8State : EState :=
  { rows := [{ chars := ['b'], hl := [HL.hl_normal], in_mloc := false }]
  , cursorX := 0
  , cursorY := 0
  , row_offset := 0
  , column_offset := 0
  , last_match := -1
  , direction := 1
  , saved := none }

/-! ### Render length (claim C2) -/

/-- Each input byte of `UpdateRow`'s loop emits between 1 and
`LEAF_TAB_STOP` cells: a tab emits `LEAF_TAB_STOP - idx % LEAF_TAB_STOP`
spaces, anything else exactly one byte. -/
theorem renderAux_length_bounds : ∀ (cs acc : List Char),
    acc.length + cs.length ≤ (renderAux acc cs).length ∧
    (renderAux acc cs).length ≤ acc.length + cs.length + countTabs cs * (LEAF_TAB_STOP - 1)
  | [], acc => by simp [renderAux, countTabs]
  | c :: rest, acc => by
      have hcount : countTabs (c :: rest) =
          countTabs rest + (if c == '\t' then 1 else 0) := by
        simp [countTabs, List.countP_cons]
      cases hc : (c == '\t') with
      | false =>
          have ih := renderAux_length_bounds rest (acc ++ [c])
          rw [List.length_append, List.length_singleton] at ih
          have hr : renderAux acc (c :: rest) = renderAux (acc ++ [c]) rest := by
            rw [renderAux, hc]; rfl
          rw [hr, hcount, hc]
          simp only [List.length_cons, if_false, Bool.false_eq_true, Nat.add_zero,
            LEAF_TAB_STOP] at ih ⊢
          omega
      | true =>
          have ih := renderAux_length_bounds rest
            (acc ++ List.replicate (LEAF_TAB_STOP - acc.length % LEAF_TAB_STOP) ' ')
          rw [List.length_append, List.length_replicate] at ih
          have hm : acc.length % LEAF_TAB_STOP < LEAF_TAB_STOP :=
            Nat.mod_lt _ (by norm_num [LEAF_TAB_STOP])
          have hr : renderAux acc (c :: rest) =
              renderAux (acc ++ List.replicate (LEAF_TAB_STOP - acc.length % LEAF_TAB_STOP) ' ') rest := by
            rw [renderAux, hc]; rfl
          rw [hr, hcount, hc]
          simp only [List.length_cons, if_true, LEAF_TAB_STOP] at ih hm ⊢
          omega

/-- `rsize` is at least `size` and at most `size + tabs * (tabstop-1)`. -/
theorem renderChars_length_bounds (cs : List Char) :
    cs.length ≤ (renderChars cs).length ∧
    (renderChars cs).length ≤ cs.length + countTabs cs * (LEAF_TAB_STOP - 1) := by
  have h := renderAux_length_bounds cs []
  simpa [renderChars] using h

/-- C2 (counterexample): for the row built from an empty row by
`insertChar 'a'` then `insertChar '\t'` — chars `"a\t"` — the claimed
equation `rsize = size + tabs * (tabstop - 1)` fails: the render length
is 8 (the tab at column 1 fills only to the next tab stop) while
`size + tabs * 7 = 9`. -/
theorem c2_exact_tab_equation_fails :
    ¬((renderChars (applyRowOps [] [RowOp.ins 0 'a', RowOp.ins 1 '\t'])).length =
       (applyRowOps [] [RowOp.ins 0 'a', RowOp.ins 1 '\t']).length +
       countTabs (applyRowOps [] [RowOp.ins 0 'a', RowOp.ins 1 '\t']) * (LEAF_TAB_STOP - 1)) := by
  decide

/-- C2 (amended): after any sequence of `insertChar`/`deleteChar`
operations on any row, the render length lies between the chars length and
the chars length plus `tabs * (tabstop - 1)`; the upper bound is attained
exactly when every tab starts at a render column that is a multiple of the
tab stop (each tab contributes `tabstop - col % tabstop` cells, not always
`tabstop`). -/
theorem c2_render_length_bounded (chars0 : List Char) (ops : List RowOp) :
    (applyRowOps chars0 ops).length ≤ (renderChars (applyRowOps chars0 ops)).length ∧
    (renderChars (applyRowOps chars0 ops)).length ≤
      (applyRowOps chars0 ops).length +
        countTabs (applyRowOps chars0 ops) * (LEAF_TAB_STOP - 1) :=
  renderChars_length_bounds (applyRowOps chars0 ops)

/-! ### Column converters (claims C5, C1, C3) -/

/-- One step of either converter strictly increases the visual column. -/
theorem tabStep_gt (c : Char) (cur : Nat) :
    cur < (if c == '\t' then cur + (LEAF_TAB_STOP - cur % LEAF_TAB_STOP) else cur + 1) := by
  cases hc : (c == '\t') with
  | false => simp
  | true =>
      simp only [if_true]
      have : cur % LEAF_TAB_STOP < LEAF_TAB_STOP := Nat.mod_lt _ (by norm_num [LEAF_TAB_STOP])
      omega

/-- Iterating zero steps returns the accumulator. -/
theorem cxToRxAux_zero (cs : List Char) (cur : Nat) : cxToRxAux cs 0 cur = cur := by
  cases cs <;> rfl

/-- The logical-to-visual accumulator never decreases. -/
theorem cxToRxAux_le : ∀ (cs : List Char) (n cur : Nat), cur ≤ cxToRxAux cs n cur
  | cs, 0, cur => by rw [cxToRxAux_zero]
  | [], n + 1, cur => Nat.le_add_right _ _
  | c :: rest, n + 1, cur =>
      Nat.le_trans (Nat.le_of_lt (tabStep_gt c cur)) (cxToRxAux_le rest n _)

/-- The two converter loops are exact inverses while the logical column
stays within the row: scanning from the same start column, the
visual-to-logical loop applied to the visual column of logical column `c`
stops after exactly `c` characters. -/
theorem rxToCx_of_cxToRx : ∀ (cs : List Char) (c cur cx : Nat), c ≤ cs.length →
    rxToCxAux cs cur (cxToRxAux cs c cur) cx = cx + c
  | [], 0, cur, cx, _ => by simp [cxToRxAux_zero, rxToCxAux]
  | [], c + 1, cur, cx, h => by simp at h
  | ch :: rest, 0, cur, cx, _ => by
      have h1 := tabStep_gt ch cur
      rw [cxToRxAux_zero]
      simp only [rxToCxAux]
      rw [if_pos h1]
      simp
  | ch :: rest, c + 1, cur, cx, h => by
      have hle : cxToRxAux (ch :: rest) (c + 1) cur = cxToRxAux rest c
          (if ch == '\t' then cur + (LEAF_TAB_STOP - cur % LEAF_TAB_STOP) else cur + 1) := rfl
      have hM := cxToRxAux_le rest c
        (if ch == '\t' then cur + (LEAF_TAB_STOP - cur % LEAF_TAB_STOP) else cur + 1)
      have ih := rxToCx_of_cxToRx rest c
        (if ch == '\t' then cur + (LEAF_TAB_STOP - cur % LEAF_TAB_STOP) else cur + 1)
        (cx + 1) (by simpa using h)
      rw [hle]
      simp only [rxToCxAux]
      rw [if_neg (by omega)]
      rw [ih]
      omega

/-- Composing `CursorXToRenderXConverter` with `RederXToCursorXConverter`
is the identity on valid logical columns. -/
theorem converter_roundtrip (chars : List Char) (c : Nat) (h : c ≤ chars.length) :
    RederXToCursorXConverter chars (CursorXToRenderXConverter chars c) = c := by
  have := rxToCx_of_cxToRx chars c 0 0 h
  simpa [RederXToCursorXConverter, CursorXToRenderXConverter] using this

/-- C5: for every row and logical column `c` within the row,
`visualToLogical (row, logicalToVisual (row, c))` differs from `c` by less
than one tab-stop width and never exceeds the row's logical length (in
fact the composition is exactly `c`). -/
theorem c5_converter_roundtrip (chars : List Char) (c : Nat) (h : c ≤ chars.length) :
    Nat.dist (RederXToCursorXConverter chars (CursorXToRenderXConverter chars c)) c
        < LEAF_TAB_STOP ∧
    RederXToCursorXConverter chars (CursorXToRenderXConverter chars c) ≤ chars.length := by
  rw [converter_roundtrip chars c h]
  constructor
  · simp [Nat.dist_self, LEAF_TAB_STOP]
  · exact h

/-- Witness for C5 at the concrete row `"a\tb"` and column 2. -/
theorem c5_converter_roundtrip_witness :
    Nat.dist (RederXToCursorXConverter "a\tb".toList
        (CursorXToRenderXConverter "a\tb".toList 2)) 2 < LEAF_TAB_STOP ∧
    RederXToCursorXConverter "a\tb".toList
        (CursorXToRenderXConverter "a\tb".toList 2) ≤ "a\tb".toList.length :=
  c5_converter_roundtrip "a\tb".toList 2 (by decide)

/-! ### Search cursor placement (claims C1, C3) -/

/-- C1 (code bug, evaluated at the failing input): searching for `"a"` in
the single-row document whose row is TAB followed by seven `'a'`s (typed
query key `'a'` = 97) finds the match at render byte offset 8, and the
code then assigns `cursorX` through `CursorXToRenderXConverter` — the
logical-to-visual direction — yielding 15, whereas the visual-to-logical
conversion the spec prescribes (`RederXToCursorXConverter`, defined in
leaf.c but never called) yields logical column 1, the true start of the
match in document coordinates. -/
theorem c1_search_match_cursor_code_bug :
    strstr (renderChars bugRow.chars) ['a'] = some 8 ∧
    (findCallback bugState ['a'] 97).cursorX = CursorXToRenderXConverter bugRow.chars 8 ∧
    CursorXToRenderXConverter bugRow.chars 8 = 15 ∧
    RederXToCursorXConverter bugRow.chars 8 = 1 := by
  decide

/-- C3 (code bug, evaluated at the failing input): starting from a state
satisfying the cursor invariant (cursor at the origin of a one-row
document), one search step on query `"a"` leaves `cursorY = 0` but sets
`cursorX = 15`, which exceeds the row's chars length 8 — the invariant
`cursorX ≤ current row's chars length` is broken by the search operation
(a consequence of the converter mix-up of C1). -/
theorem c3_search_breaks_cursor_invariant :
    bugState.cursorY = 0 ∧ bugState.cursorX = 0 ∧
    bugState.cursorX ≤ (bugState.rows.getD bugState.cursorY default).chars.length ∧
    (findCallback bugState ['a'] 97).cursorY = 0 ∧
    (findCallback bugState ['a'] 97).cursorX = 15 ∧
    ((findCallback bugState ['a'] 97).rows.getD 0 default).chars.length = 8 ∧
    ¬((findCallback bugState ['a'] 97).cursorX ≤
        ((findCallback bugState ['a'] 97).rows.getD
          (findCallback bugState ['a'] 97).cursorY default).chars.length) := by
  decide

/-! ### Block-comment scenario (claim C6) -/

/-- C6: in the document `["a", "b", "*/c"]` under the C profile (block
comment delimiters `/*`, `*/`), inserting `'/'` then `'*'` at the start of
row 0 and re-running the highlight pass marks rows 0 and 1 entirely
`HL_MLCOMMENT`, the `*/` of row 2 `HL_MLCOMMENT`, and the `c` of row 2
`HL_NORMAL`. -/
theorem c6_block_comment_scenario :
    c6doc2.map Row.chars = [['/', '*', 'a'], ['b'], ['*', '/', 'c']] ∧
    c6doc2.map Row.hl =
      [ [HL.hl_mlcomment, HL.hl_mlcomment, HL.hl_mlcomment]
      , [HL.hl_mlcomment]
      , [HL.hl_mlcomment, HL.hl_mlcomment, HL.hl_normal] ] := by
  decide

/-! ### Empty-query search (claim C4) -/

/-- C4 (counterexample): with the one-row document `"ab"`, cursor at
column 1 and no pending highlight save, invoking the search callback with
an empty query and an ordinary key (`'x'` = 120) does not return
immediately: the empty query matches row 0 at offset 0, so the cursor
moves to column 0 and the row offset is set to the row count. -/
theorem c4_empty_query_moves_cursor :
    ¬((findCallback c4State [] 120).cursorX = c4State.cursorX ∧
      (findCallback c4State [] 120).row_offset = c4State.row_offset) := by
  decide

/-- `memset` over zero bytes changes nothing. -/
theorem setRange_zero (hl : List HL) (i : Nat) (v : HL) : setRange hl i 0 v = hl := by
  simp [setRange]

/-- C `strstr` with an empty needle returns the haystack itself
(offset 0). -/
theorem strstr_nil (hay : List Char) : strstr hay [] = some 0 := by
  unfold strstr; simp [List.isPrefixOf]

/-- C4 (amended): `findCallback` on an empty query (no pending highlight
save) returns immediately with everything unchanged only for the Enter
and Escape keys; for any other non-arrow key the empty query matches row
0 at offset 0, so the cursor moves to (0, 0) and the row offset is set to
the row count — though no highlight cell is overwritten, the match span
being empty. -/
theorem c4_empty_query_behavior (st : EState) (hs : st.saved = none) (k : Int)
    (hk : k ≠ 13 ∧ k ≠ 27 ∧ k ≠ 1000 ∧ k ≠ 1001 ∧ k ≠ 1002 ∧ k ≠ 1003)
    (hr : st.rows ≠ []) :
    findCallback st [] KEY_ENTER = { st with last_match := -1, direction := 1 } ∧
    findCallback st [] KEY_ESC = { st with last_match := -1, direction := 1 } ∧
    (findCallback st [] k).rows.map Row.hl = st.rows.map Row.hl ∧
    (findCallback st [] k).cursorY = 0 ∧
    (findCallback st [] k).cursorX = 0 ∧
    (findCallback st [] k).row_offset = st.rows.length := by
  obtain ⟨rows, cx, cy, ro, co, lm, dir, sav⟩ := st
  simp only [EState.mk.injEq] at hs ⊢
  subst hs
  obtain ⟨r0, rest, rfl⟩ : ∃ r0 rest, rows = r0 :: rest := by
    cases rows with
    | nil => exact absurd rfl hr
    | cons a l => exact ⟨a, l, rfl⟩
  refine ⟨?_, ?_, ?_⟩
  · simp [findCallback, findCallbackV, restoreSaved, KEY_ENTER]
  · simp [findCallback, findCallbackV, restoreSaved, KEY_ESC]
  · have hcond : ¬(k = KEY_ENTER ∨ k = KEY_ESC) := by
      simp [KEY_ENTER, KEY_ESC]
      exact ⟨hk.1, hk.2.1⟩
    have harrow : ¬(k = KEY_LEFT ∨ k = KEY_RIGHT ∨ k = KEY_UP ∨ k = KEY_DOWN) := by
      simp [KEY_LEFT, KEY_RIGHT, KEY_UP, KEY_DOWN]
      exact ⟨hk.2.2.1, hk.2.2.2.1, hk.2.2.2.2.1, hk.2.2.2.2.2⟩
    have hN : ((rest.length + 1 : Nat) : Int) ≠ 0 := by
      omega
    have hsearch : searchLoop (r0 :: rest) [] (rest.length + 1) (-1) 1 =
        (some (0, 0), [0]) := by
      simp only [searchLoop, searchStep]
      norm_num [strstr_nil]
    simp only [findCallback, findCallbackV, findScan, restoreSaved]
    rw [if_neg hcond, if_neg harrow]
    norm_num
    rw [hsearch]
    simp [setRange_zero, cxToRxAux_zero, CursorXToRenderXConverter, List.getD]

/-- Witness for C4's amended theorem at the concrete state `c4State` and
key `'x'` = 120. -/
theorem c4_empty_query_behavior_witness :
    findCallback c4State [] KEY_ENTER = { c4State with last_match := -1, direction := 1 } ∧
    findCallback c4State [] KEY_ESC = { c4State with last_match := -1, direction := 1 } ∧
    (findCallback c4State [] 120).rows.map Row.hl = c4State.rows.map Row.hl ∧
    (findCallback c4State [] 120).cursorY = 0 ∧
    (findCallback c4State [] 120).cursorX = 0 ∧
    (findCallback c4State [] 120).row_offset = c4State.rows.length :=
  c4_empty_query_behavior c4State rfl 120 (by decide) (by decide)

/-! ### Highlight cascade termination and bound (claim C7) -/

/-- The rows visited by one highlight cascade form a consecutive block
starting at the triggering row, whose length is bounded by the cascade
bound (or is the single triggering row). -/
theorem highlightCascade_visits (syn : SyntaxDef) (bound : Nat) :
    ∀ (fuel : Nat) (rows : List Row) (idx : Nat),
      ∃ k, (highlightCascade syn bound fuel rows idx).2 = List.range' idx k ∧
           (k ≤ 1 ∨ idx + k ≤ bound)
  | 0, rows, idx => ⟨0, rfl, Or.inl (by omega)⟩
  | fuel + 1, rows, idx => by
      rw [highlightCascade]
      by_cases h : idx < rows.length
      · rw [if_pos h]
        simp only []
        by_cases hc : (rowPass syn rows idx).2 = true ∧ idx + 1 < bound
        · rw [if_pos hc]
          obtain ⟨k, hk, hb⟩ :=
            highlightCascade_visits syn bound fuel (rowPass syn rows idx).1 (idx + 1)
          refine ⟨k + 1, ?_, by omega⟩
          simp only [List.range'_succ]
          rw [hk]
        · rw [if_neg hc]
          exact ⟨1, rfl, Or.inl (by omega)⟩
      · rw [if_neg h]
        exact ⟨0, rfl, Or.inl (by omega)⟩

/-- C7: for any document and cascade bound not exceeding the row count,
the cascade triggered by one row's highlight pass (run with its standard
fuel) visits a consecutive block of rows starting at the triggering row,
visits each row at most once (the visit list has no duplicates), and
re-runs the pass on at most N rows — in particular it terminates (the
embedding is total by construction, with fuel `bound + 1` never
exhausted). -/
theorem c7_cascade_bounded (syn : SyntaxDef) (bound : Nat) (rows : List Row) (idx : Nat)
    (hb : bound ≤ rows.length) (hidx : idx < rows.length) :
    (highlightCascade syn bound (bound + 1) rows idx).2 =
      List.range' idx (highlightCascade syn bound (bound + 1) rows idx).2.length ∧
    (highlightCascade syn bound (bound + 1) rows idx).2.Nodup ∧
    (highlightCascade syn bound (bound + 1) rows idx).2.length ≤ rows.length := by
  obtain ⟨k, hk, hbnd⟩ := highlightCascade_visits syn bound (bound + 1) rows idx
  have hlen : (highlightCascade syn bound (bound + 1) rows idx).2.length = k := by
    rw [hk, List.length_range']
  refine ⟨by rw [hlen, hk], ?_, ?_⟩
  · rw [hk]; exact List.nodup_range' _ _
  · rw [hlen]; omega

/-- Witness for C7 on a concrete two-row document with the cascade
triggered at row 0. -/
theorem c7_cascade_bounded_witness :
    (highlightCascade CSyntax 2 3 c6doc0 0).2 =
      List.range' 0 (highlightCascade CSyntax 2 3 c6doc0 0).2.length ∧
    (highlightCascade CSyntax 2 3 c6doc0 0).2.Nodup ∧
    (highlightCascade CSyntax 2 3 c6doc0 0).2.length ≤ c6doc0.length :=
  c7_cascade_bounded CSyntax 2 c6doc0 0 (by decide) (by decide)

/-! ### Serialize / ingest round trip (claim C9) -/


/-- Stripping the trailing line-end bytes of a line that is clean text
followed by one newline returns the clean text. -/
theorem stripLineEnd_concat_newline (l : List Char) (hn : '\n' ∉ l) (hr : '\r' ∉ l) :
    stripLineEnd (l ++ ['\n']) = l := by
  unfold stripLineEnd
  rw [List.reverse_append]
  simp only [List.reverse_cons, List.reverse_nil, List.nil_append, List.singleton_append]
  have h1 : ('\n' :: l.reverse).dropWhile (fun c => c == '\n' || c == '\r') =
      l.reverse.dropWhile (fun c => c == '\n' || c == '\r') := by
    simp [List.dropWhile_cons]
  have h2 : l.reverse.dropWhile (fun c => c == '\n' || c == '\r') = l.reverse := by
    cases hrev : l.reverse with
    | nil => simp
    | cons a t =>
        have ha : a ∈ l := by
          rw [← List.mem_reverse, hrev]; exact List.mem_cons_self _ _
        have hpa : ((a == '\n' || a == '\r') = true) → False := by
          simp only [Bool.or_eq_true, beq_iff_eq]
          rintro (rfl | rfl)
          · exact hn ha
          · exact hr ha
        have hpa' : (a == '\n' || a == '\r') = false := by
          cases hb : (a == '\n' || a == '\r') with
          | false => rfl
          | true => exact absurd hb hpa
        simp [List.dropWhile_cons, hpa']
  rw [h1, h2, List.reverse_reverse]

/-- `rowsToString` unfolds one row at a time. -/
theorem rowsToString_cons (r : List Char) (rs : List (List Char)) :
    rowsToString (r :: rs) = r ++ '\n' :: rowsToString rs := rfl

/-- A non-empty document serializes to a buffer ending in a newline. -/
theorem rowsToString_getLast : ∀ (rows : List (List Char)), rows ≠ [] →
    (rowsToString rows).getLast? = some '\n'
  | [], h => absurd rfl h
  | r :: rs, _ => by
      rw [rowsToString_cons, List.getLast?_append]
      cases hrs : rs with
      | nil =>
          simp [rowsToString]
      | cons a l =>
          have ih := rowsToString_getLast rs (by rw [hrs]; simp)
          cases hx : rowsToString rs with
          | nil =>
              rw [hx] at ih
              simp at ih
          | cons b t =>
              rw [← hrs, hx, List.getLast?_cons_cons, ← hx, ih]
              simp

/-- Serializing CR-free rows yields a CR-free buffer. -/
theorem rowsToString_no_cr : ∀ (rows : List (List Char)),
    (∀ r ∈ rows, '\r' ∉ r) → '\r' ∉ rowsToString rows
  | [], _ => by simp [rowsToString]
  | r :: rs, h => by
      rw [rowsToString_cons]
      intro hmem
      rcases List.mem_append.1 hmem with hin | hin
      · exact h r (List.mem_cons_self _ _) hin
      · rcases List.mem_cons.1 hin with heq | hin'
        · exact absurd heq.symm (by decide)
        · exact rowsToString_no_cr rs (fun q hq => h q (List.mem_cons_of_mem _ hq)) hin'

/-- Core round trip: splitting a CR-free buffer that ends in a newline
into `getline` lines, stripping each line end, and re-serializing
reproduces the buffer byte for byte. -/
theorem getLines_roundtrip : ∀ (buf acc : List Char),
    '\n' ∉ acc → '\r' ∉ acc → '\r' ∉ buf →
    (buf.getLast? = some '\n' ∨ (acc = [] ∧ buf = [])) →
    rowsToString ((getLinesAux acc buf).map stripLineEnd) = acc.reverse ++ buf
  | [], acc, hn, hr, hbr, hend => by
      rcases hend with hend | ⟨rfl, _⟩
      · simp at hend
      · simp [getLinesAux, rowsToString]
  | c :: rest, acc, hn, hr, hbr, hend => by
      have hbr' : '\r' ∉ rest := fun h => hbr (List.mem_cons_of_mem _ h)
      cases hc : (c == '\n') with
      | true =>
          have hceq : c = '\n' := by simpa using hc
          have hga : getLinesAux acc (c :: rest) =
              (acc.reverse ++ ['\n']) :: getLinesAux [] rest := by
            rw [getLinesAux, hc]; simp
          rw [hga]
          simp only [List.map_cons]
          rw [stripLineEnd_concat_newline acc.reverse (by simpa using hn) (by simpa using hr)]
          rw [rowsToString_cons]
          have hend' : rest.getLast? = some '\n' ∨ (([] : List Char) = [] ∧ rest = []) := by
            cases hrest : rest with
            | nil => exact Or.inr ⟨rfl, rfl⟩
            | cons a l =>
                rcases hend with hend | ⟨_, habs⟩
                · left
                  subst hrest
                  rw [List.getLast?_cons_cons] at hend
                  exact hend
                · exact absurd habs (by simp)
          have ih := getLines_roundtrip rest [] (by simp) (by simp) hbr' hend'
          rw [ih]
          simp [hceq]
      | false =>
          have hcne : c ≠ '\n' := by simpa using hc
          have hcr : c ≠ '\r' := fun h => hbr (by rw [h]; exact List.mem_cons_self _ _)
          have hga : getLinesAux acc (c :: rest) = getLinesAux (c :: acc) rest := by
            rw [getLinesAux, hc]; simp
          rw [hga]
          have hend' : rest.getLast? = some '\n' ∨ ((c :: acc) = [] ∧ rest = []) := by
            rcases hend with hend | ⟨_, habs⟩
            · cases hrest : rest with
              | nil =>
                  subst hrest
                  simp at hend
                  exact absurd hend hcne
              | cons a l =>
                  left
                  subst hrest
                  rw [List.getLast?_cons_cons] at hend
                  exact hend
            · exact absurd habs (by simp)
          have ih := getLines_roundtrip rest (c :: acc)
            (by
              intro hmem
              rcases List.mem_cons.1 hmem with heq | hin
              · exact hcne heq.symm
              · exact hn hin)
            (by
              intro hmem
              rcases List.mem_cons.1 hmem with heq | hin
              · exact hcr heq.symm
              · exact hr hin)
            hbr' hend'
          rw [ih]
          simp

/-- C9: for a document whose rows contain no CR bytes, serialize,
re-ingest as lines, serialize again gives a byte buffer identical to the
first serialization. -/
theorem c9_serialize_roundtrip (rows : List (List Char)) (h : ∀ r ∈ rows, '\r' ∉ r) :
    rowsToString (readLines (rowsToString rows)) = rowsToString rows := by
  unfold readLines
  rcases eq_or_ne rows [] with rfl | hne
  · simp [rowsToString, getLinesAux]
  · have := getLines_roundtrip (rowsToString rows) [] (by simp) (by simp)
      (rowsToString_no_cr rows h) (Or.inl (rowsToString_getLast rows hne))
    simpa using this

/-- Witness for C9 on a three-row document (one row even containing an
embedded LF, which re-ingestion splits without changing the bytes). -/
theorem c9_serialize_roundtrip_witness :
    rowsToString (readLines (rowsToString [['a', 'b'], [], ['c', '\n', 'd']])) =
      rowsToString [['a', 'b'], [], ['c', '\n', 'd']] :=
  c9_serialize_roundtrip [['a', 'b'], [], ['c', '\n', 'd']] (by decide)

/-! ### NUL termination of row buffers (claim C10) -/


theorem nulTerminated_lt {buf : List Char} {size : Nat} (h : nulTerminated buf size) :
    size < buf.length :=
  (List.get?_eq_some.1 h).choose

theorem insertRowCharsBuf_nul (s : List Char) :
    nulTerminated (insertRowCharsBuf s) s.length := by
  unfold nulTerminated insertRowCharsBuf
  rw [List.get?_append_right (Nat.le_refl _)]
  simp

theorem rowInsertCharBuf_nul (buf : List Char) (size a : Nat) (c : Char)
    (h : nulTerminated buf size) :
    nulTerminated (rowInsertCharBuf buf size a c) (size + 1) := by
  have hlen := nulTerminated_lt h
  unfold nulTerminated rowInsertCharBuf
  set a' := if a > size then size else a with ha'
  have haa : a' ≤ size := by
    rw [ha']; split <;> omega
  have h1 : (buf.take a').length = a' := by
    rw [List.length_take]; omega
  rw [List.get?_append_right (by omega)]
  rw [h1]
  have h2 : size + 1 - a' = (size - a') + 1 := by omega
  rw [h2]
  simp only [List.get?_cons_succ]
  rw [List.get?_take (by omega)]
  rw [List.get?_drop]
  have h3 : a' + (size - a') = size := by omega
  rw [h3]
  exact h

theorem rowDeleteCharBuf_nul (buf : List Char) (size a : Nat)
    (h : nulTerminated buf size) (ha : a < size) :
    nulTerminated (rowDeleteCharBuf buf size a) (size - 1) := by
  have hlen := nulTerminated_lt h
  unfold nulTerminated rowDeleteCharBuf
  have hc : ¬(a > size) := by omega
  rw [if_neg hc]
  have h1 : (buf.take a).length = a := by
    rw [List.length_take]; omega
  rw [List.append_assoc, List.get?_append_right (by omega), h1]
  have h2 : ((buf.drop (a + 1)).take (size - a)).length = size - a := by
    rw [List.length_take, List.length_drop]; omega
  rw [List.get?_append (by omega)]
  rw [List.get?_take (by omega), List.get?_drop]
  have h3 : a + 1 + (size - 1 - a) = size := by omega
  rw [h3]
  exact h

theorem rowAppendStringBuf_nul (buf : List Char) (size : Nat) (s : List Char)
    (h : nulTerminated buf size) :
    nulTerminated (rowAppendStringBuf buf size s) (size + s.length) := by
  have hlen := nulTerminated_lt h
  unfold nulTerminated rowAppendStringBuf
  have h1 : (buf.take size).length = size := by
    rw [List.length_take]; omega
  rw [List.append_assoc, List.get?_append_right (by omega), h1]
  have h2 : size + s.length - size = s.length := by omega
  rw [h2, List.get?_append_right (Nat.le_refl _)]
  simp

theorem truncateRowBuf_nul (buf : List Char) (size newSize : Nat)
    (h : nulTerminated buf size) (hns : newSize ≤ size) :
    nulTerminated (truncateRowBuf buf newSize) newSize := by
  have hlen := nulTerminated_lt h
  unfold nulTerminated truncateRowBuf
  have h1 : (buf.take newSize).length = newSize := by
    rw [List.length_take]; omega
  rw [List.get?_append_right (by omega), h1]
  simp

theorem renderCharsBuf_nul (chars : List Char) :
    nulTerminated (renderCharsBuf chars) (renderChars chars).length := by
  unfold nulTerminated renderCharsBuf
  rw [List.get?_append_right (Nat.le_refl _)]
  simp

/-- C10: every row mutation of leaf.c leaves the chars buffer with a NUL
byte at index `size`, and `UpdateRow` leaves the render buffer with a NUL
byte at index `rsize` (which moreover fits inside the
`size + tabs*(LEAF_TAB_STOP-1) + 1` bytes `UpdateRow` allocates) — the
invariant that lets the `strstr`-based search scan stay within the row's
buffer: `insertRow` writes the NUL explicitly; `rowInsertChar`'s `memmove`
carries it along; `rowDeleteChar` (at a valid backspace position) slides
the tail including the NUL down; `rowAppendString` and the line-split
truncation store it explicitly. -/
theorem c10_nul_termination :
    (∀ s : List Char, nulTerminated (insertRowCharsBuf s) s.length) ∧
    (∀ (buf : List Char) (size a : Nat) (c : Char), nulTerminated buf size →
        nulTerminated (rowInsertCharBuf buf size a c) (size + 1)) ∧
    (∀ (buf : List Char) (size a : Nat), nulTerminated buf size → a < size →
        nulTerminated (rowDeleteCharBuf buf size a) (size - 1)) ∧
    (∀ (buf : List Char) (size : Nat) (s : List Char), nulTerminated buf size →
        nulTerminated (rowAppendStringBuf buf size s) (size + s.length)) ∧
    (∀ (buf : List Char) (size newSize : Nat), nulTerminated buf size → newSize ≤ size →
        nulTerminated (truncateRowBuf buf newSize) newSize) ∧
    (∀ chars : List Char, nulTerminated (renderCharsBuf chars) (renderChars chars).length ∧
        (renderChars chars).length + 1 ≤
          chars.length + countTabs chars * (LEAF_TAB_STOP - 1) + 1) :=
  ⟨insertRowCharsBuf_nul, rowInsertCharBuf_nul, rowDeleteCharBuf_nul,
   rowAppendStringBuf_nul, truncateRowBuf_nul,
   fun chars => ⟨renderCharsBuf_nul chars, by
      have hb := (renderChars_length_bounds chars).2
      omega⟩⟩

/-- Witness for C10, instantiating every hypothesis-bearing conjunct on
concrete NUL-terminated buffers. -/
theorem c10_nul_termination_witness :
    nulTerminated (rowInsertCharBuf ['a', '\x00'] 1 0 'b') 2 ∧
    nulTerminated (rowDeleteCharBuf ['a', 'b', '\x00'] 2 0) 1 ∧
    nulTerminated (rowAppendStringBuf ['a', '\x00'] 1 ['c', 'd']) 3 ∧
    nulTerminated (truncateRowBuf ['a', 'b', '\x00'] 1) 1 :=
  ⟨c10_nul_termination.2.1 ['a', '\x00'] 1 0 'b' rfl,
   c10_nul_termination.2.2.1 ['a', 'b', '\x00'] 2 0 rfl (by decide),
   c10_nul_termination.2.2.2.1 ['a', '\x00'] 1 ['c', 'd'] rfl,
   c10_nul_termination.2.2.2.2.1 ['a', 'b', '\x00'] 2 1 rfl (by decide)⟩

/-! ### Failed search leaves state unchanged after one full wrap (claim C8) -/


/-- The wrap-around step keeps `current` inside `[0, N)` and acts as
addition of `direction` modulo the row count. -/
theorem searchStep_spec (n : Nat) (hn : 1 ≤ n) (cur d : Int)
    (hd : d = 1 ∨ d = -1)
    (hc : (0 ≤ cur ∧ cur < (n : Int)) ∨ (cur = -1 ∧ d = 1)) :
    searchStep n cur d = (cur + d) % (n : Int) ∧
    0 ≤ searchStep n cur d ∧ searchStep n cur d < (n : Int) := by
  unfold searchStep
  by_cases h1 : cur + d = -1
  · rw [if_pos h1, h1]
    have e2 : (-1 : Int) % (n : Int) = ((n : Int) - 1) % (n : Int) := by
      conv_lhs => rw [show (-1 : Int) = ((n : Int) - 1) + (n : Int) * (-1) by ring]
      rw [Int.add_mul_emod_self_left]
    have e1 : ((n : Int) - 1) % (n : Int) = (n : Int) - 1 :=
      Int.emod_eq_of_lt (by omega) (by omega)
    refine ⟨by rw [e2, e1], by omega, by omega⟩
  · by_cases h2 : cur + d = (n : Int)
    · rw [if_neg h1, if_pos h2, h2]
      refine ⟨Int.emod_self.symm, by omega, by omega⟩
    · rw [if_neg h1, if_neg h2]
      have hrange : 0 ≤ cur + d ∧ cur + d < (n : Int) := by
        rcases hd with rfl | rfl <;> rcases hc with ⟨hc1, hc2⟩ | ⟨rfl, hcd⟩ <;> omega
      exact ⟨(Int.emod_eq_of_lt hrange.1 hrange.2).symm, hrange.1, hrange.2⟩

/-- When no row's render text contains the query, the scan loop finds
nothing and its visit sequence is exactly `fuel` wrap-around steps from
the start row. -/
theorem searchLoop_no_match (rows : List Row) (q : List Char)
    (hnm : ∀ r ∈ rows, strstr (renderChars r.chars) q = none) (hn : 1 ≤ rows.length) :
    ∀ (fuel : Nat) (cur d : Int), (d = 1 ∨ d = -1) →
      ((0 ≤ cur ∧ cur < (rows.length : Int)) ∨ (cur = -1 ∧ d = 1)) →
      searchLoop rows q fuel cur d =
        (none, (List.range fuel).map
          (fun (j : Nat) => ((cur + ((j : Int) + 1) * d) % (rows.length : Int)).toNat))
  | 0, cur, d, _, _ => by simp [searchLoop]
  | fuel + 1, cur, d, hd, hc => by
      obtain ⟨hstep, h0, hlt⟩ := searchStep_spec rows.length hn cur d hd hc
      have hidx : (searchStep rows.length cur d).toNat < rows.length := by omega
      have hrowmem : rows.getD (searchStep rows.length cur d).toNat default ∈ rows := by
        rw [List.getD_eq_getElem _ _ hidx]
        apply List.getElem_mem
      have ih := searchLoop_no_match rows q hnm hn fuel (searchStep rows.length cur d) d hd
        (Or.inl ⟨h0, hlt⟩)
      rw [searchLoop]
      simp only [hnm _ hrowmem]
      rw [ih]
      refine Prod.ext rfl ?_
      simp only []
      rw [List.range_succ_eq_map, List.map_cons, List.map_map]
      congr 1
      · norm_num
        rw [hstep]
      · apply List.map_congr_left
        intro j hj
        simp only [Function.comp]
        congr 1
        rw [hstep, Int.emod_add_emod]
        congr 1
        push_cast
        ring

/-- `N` consecutive wrap-around steps visit `N` pairwise distinct row
indexes, all below `N`, hence every row exactly once. -/
theorem visited_formula_props (n : Nat) (hn : 1 ≤ n) (cur d : Int)
    (hd : d = 1 ∨ d = -1) :
    ((List.range n).map
        (fun (j : Nat) => ((cur + ((j : Int) + 1) * d) % (n : Int)).toNat)).Nodup ∧
    ((List.range n).map
        (fun (j : Nat) => ((cur + ((j : Int) + 1) * d) % (n : Int)).toNat)).length = n ∧
    (∀ j, j < n → j ∈ (List.range n).map
        (fun (j : Nat) => ((cur + ((j : Int) + 1) * d) % (n : Int)).toNat)) := by
  have hne : (n : Int) ≠ 0 := by omega
  have hpos : (0 : Int) < n := by omega
  have hmem : ∀ x ∈ (List.range n).map
      (fun (j : Nat) => ((cur + ((j : Int) + 1) * d) % (n : Int)).toNat), x < n := by
    intro x hx
    rcases List.mem_map.1 hx with ⟨j, _, rfl⟩
    have hlt := Int.emod_lt_of_pos (cur + ((j : Int) + 1) * d) hpos
    have hge := Int.emod_nonneg (cur + ((j : Int) + 1) * d) hne
    omega
  have hnodup : ((List.range n).map
      (fun (j : Nat) => ((cur + ((j : Int) + 1) * d) % (n : Int)).toNat)).Nodup := by
    refine (List.nodup_range n).map_on ?_
    intro j1 hj1 j2 hj2 heq
    rw [List.mem_range] at hj1 hj2
    have hge1 := Int.emod_nonneg (cur + ((j1 : Int) + 1) * d) hne
    have hge2 := Int.emod_nonneg (cur + ((j2 : Int) + 1) * d) hne
    have heq2 : (cur + ((j1 : Int) + 1) * d) % (n : Int) =
        (cur + ((j2 : Int) + 1) * d) % (n : Int) := by
      omega
    have hz := Int.emod_eq_emod_iff_emod_sub_eq_zero.1 heq2
    have hdvd : (n : Int) ∣ (cur + ((j1 : Int) + 1) * d) - (cur + ((j2 : Int) + 1) * d) :=
      Int.dvd_of_emod_eq_zero hz
    have hform : (cur + ((j1 : Int) + 1) * d) - (cur + ((j2 : Int) + 1) * d) =
        ((j1 : Int) - (j2 : Int)) * d := by ring
    rw [hform] at hdvd
    have hdvd2 : (n : Int) ∣ ((j1 : Int) - (j2 : Int)) := by
      rcases hd with rfl | rfl
      · simpa using hdvd
      · rcases hdvd with ⟨c, hcv⟩
        refine ⟨-c, ?_⟩
        rw [mul_neg]
        linarith [hcv]
    have hzero : ((j1 : Int) - (j2 : Int)) = 0 := by
      refine Int.eq_zero_of_dvd_of_natAbs_lt_natAbs hdvd2 ?_
      omega
    omega
  have hlen : ((List.range n).map
      (fun (j : Nat) => ((cur + ((j : Int) + 1) * d) % (n : Int)).toNat)).length = n := by
    rw [List.length_map, List.length_range]
  refine ⟨hnodup, hlen, ?_⟩
  intro j hj
  rw [← List.mem_toFinset]
  have hsub : ((List.range n).map
      (fun (j : Nat) => ((cur + ((j : Int) + 1) * d) % (n : Int)).toNat)).toFinset ⊆
      Finset.range n := by
    intro x hx
    rw [List.mem_toFinset] at hx
    exact Finset.mem_range.2 (hmem x hx)
  have hcard : (Finset.range n).card ≤ ((List.range n).map
      (fun (j : Nat) => ((cur + ((j : Int) + 1) * d) % (n : Int)).toNat)).toFinset.card := by
    rw [List.toFinset_card_of_nodup hnodup, hlen, Finset.card_range]
  rw [Finset.eq_of_subset_of_card_le hsub hcard]
  exact Finset.mem_range.2 hj

/-- The scan part of `findCallback` on a query absent from every row:
no state field changes except the static search state, no highlight save
is left behind, and each row is visited exactly once. -/
theorem findScan_no_match (st1 : EState) (q : List Char) (lm d : Int)
    (hnm : ∀ r ∈ st1.rows, strstr (renderChars r.chars) q = none)
    (hd : d = 1 ∨ d = -1)
    (hc : (0 ≤ lm ∧ lm < (st1.rows.length : Int)) ∨ (lm = -1 ∧ d = 1)) :
    (findScan st1 q lm d).1 = { st1 with last_match := lm, direction := d } ∧
    (findScan st1 q lm d).2.length = st1.rows.length ∧
    (findScan st1 q lm d).2.Nodup ∧
    ∀ j, j < st1.rows.length → j ∈ (findScan st1 q lm d).2 := by
  by_cases hnil : st1.rows.length = 0
  · unfold findScan
    rw [hnil]
    simp [searchLoop]
  · have hN : 1 ≤ st1.rows.length := by omega
    have hloop := searchLoop_no_match st1.rows q hnm hN st1.rows.length lm d hd hc
    obtain ⟨hnodup, hlen, hcompl⟩ := visited_formula_props st1.rows.length hN lm d hd
    unfold findScan
    rw [hloop]
    exact ⟨rfl, hlen, hnodup, hcompl⟩

/-- C8: for a non-empty query that is no substring of any row's render
text, one search step (any key other than Enter/Escape, no pending
highlight save, `last_match` in its legal range) visits each row exactly
once — the visit list has length `N`, no duplicates, and contains every
row index — and returns with cursor position, scroll offsets, rows and
highlights unchanged and no highlight override recorded. -/
theorem c8_no_match_full_wrap (st : EState) (q : List Char) (k : Int)
    (hq : q ≠ [])
    (hnm : ∀ r ∈ st.rows, strstr (renderChars r.chars) q = none)
    (hs : st.saved = none)
    (hk : ¬(k = KEY_ENTER ∨ k = KEY_ESC))
    (hlm1 : -1 ≤ st.last_match) (hlm2 : st.last_match < (st.rows.length : Int)) :
    (findCallbackV st q k).1.cursorX = st.cursorX ∧
    (findCallbackV st q k).1.cursorY = st.cursorY ∧
    (findCallbackV st q k).1.row_offset = st.row_offset ∧
    (findCallbackV st q k).1.column_offset = st.column_offset ∧
    (findCallbackV st q k).1.rows = st.rows ∧
    (findCallbackV st q k).1.saved = none ∧
    (findCallbackV st q k).2.length = st.rows.length ∧
    (findCallbackV st q k).2.Nodup ∧
    (∀ j, j < st.rows.length → j ∈ (findCallbackV st q k).2) := by
  have hrestore : restoreSaved st = st := by unfold restoreSaved; rw [hs]
  have hunfold : findCallbackV st q k = findScan st q
      (if k = KEY_LEFT ∨ k = KEY_RIGHT ∨ k = KEY_UP ∨ k = KEY_DOWN
       then st.last_match else -1)
      (if (if k = KEY_LEFT ∨ k = KEY_RIGHT ∨ k = KEY_UP ∨ k = KEY_DOWN
           then st.last_match else -1) = -1 then 1
       else if k = KEY_LEFT ∨ k = KEY_UP then -1 else 1) := by
    unfold findCallbackV
    rw [hrestore, if_neg hk]
  rw [hunfold]
  set LM := (if k = KEY_LEFT ∨ k = KEY_RIGHT ∨ k = KEY_UP ∨ k = KEY_DOWN
             then st.last_match else -1) with hLMdef
  set D := (if LM = -1 then (1 : Int)
            else if k = KEY_LEFT ∨ k = KEY_UP then -1 else 1) with hDdef
  have hd : D = 1 ∨ D = -1 := by
    rw [hDdef]
    split
    · exact Or.inl rfl
    · split
      · exact Or.inr rfl
      · exact Or.inl rfl
  have hc : (0 ≤ LM ∧ LM < (st.rows.length : Int)) ∨ (LM = -1 ∧ D = 1) := by
    by_cases hLM1 : LM = -1
    · exact Or.inr ⟨hLM1, by rw [hDdef, if_pos hLM1]⟩
    · left
      have hLMval : LM = st.last_match ∨ LM = -1 := by
        rw [hLMdef]
        split
        · exact Or.inl rfl
        · exact Or.inr rfl
      rcases hLMval with h | h
      · rw [h] at hLM1 ⊢
        omega
      · exact absurd h hLM1
  obtain ⟨h1, h2, h3, h4⟩ := findScan_no_match st q LM D hnm hd hc
  rw [h1]
  exact ⟨rfl, rfl, rfl, rfl, rfl, hs, h2, h3, h4⟩

/-- Witness for C8 on the one-row document `"b"`, query `"z"`, key
`'x'` = 120. -/
theorem c8_no_match_full_wrap_witness :
    (findCallbackV c8State ['z'] 120).1.cursorX = c8State.cursorX ∧
    (findCallbackV c8State ['z'] 120).1.cursorY = c8State.cursorY ∧
    (findCallbackV c8State ['z'] 120).1.row_offset = c8State.row_offset ∧
    (findCallbackV c8State ['z'] 120).1.column_offset = c8State.column_offset ∧
    (findCallbackV c8State ['z'] 120).1.rows = c8State.rows ∧
    (findCallbackV c8State ['z'] 120).1.saved = none ∧
    (findCallbackV c8State ['z'] 120).2.length = c8State.rows.length ∧
    (findCallbackV c8State ['z'] 120).2.Nodup ∧
    (∀ j, j < c8State.rows.length → j ∈ (findCallbackV c8State ['z'] 120).2) :=
  c8_no_match_full_wrap c8State ['z'] 120 (by decide) (by decide) rfl
    (by decide) (by decide) (by decide)
